import Mathlib

/-!
Verification development for the rlrd random-delay environment wrapper.

The base auto-reset wrapper `Env` and the `RandomDelayEnv` construction
branch are embedded from `src/rlrd/envs.py` (and `src/agents/envs.py`).
The delay state machine itself (`RandomDelayWrapper` and the wifi delay
wrappers of `rlrd/wrappers_rd.py`) is not present under `src/`, so it is
modelled from the specification, as marked on each such definition.
-/

set_option maxRecDepth 4096

namespace Rlrd

/-- Underlying environment (external collaborator): a deterministic
transition system over a state type, exposing the gym protocol
`reset : state -> state x observation` and
`step : state -> action -> state x (observation, reward, done, info)`.
Rewards are modelled as integers and info dictionaries as lists of
key-value pairs over naturals. -/
structure UnderEnv (σ Act Obs : Type) where
  reset : σ → σ × Obs
  step : σ → Act → σ × Obs × Int × Bool × List (Nat × Nat)

/-- State of the base auto-reset wrapper `Env` of `src/rlrd/envs.py`:
the wrapped environment state plus the stored last transition
`(next_state, reward, done, info)`. -/
structure BaseEnvState (σ Obs : Type) where
  env : σ
  transition : Obs × Int × Bool × List (Nat × Nat)
deriving DecidableEq

namespace BaseEnv

/-- `Env.reset` of `src/rlrd/envs.py`: resets the wrapped environment and
returns the (identity-transformed) observation. -/
def resetB (u : UnderEnv σ Act Obs) (s : σ) : σ × Obs :=
  u.reset s

/-- `Env.__init__` of `src/rlrd/envs.py`: resets the wrapped environment
and stores the transition `(reset observation, 0., True, empty info)`. -/
def init (u : UnderEnv σ Act Obs) (s : σ) : BaseEnvState σ Obs :=
  { env := (resetB u s).1, transition := ((resetB u s).2, 0, true, []) }

/-- `Env.step` of `src/rlrd/envs.py`: steps the wrapped environment, folds
a `done` step into an internal reset so that `next_state` is the fresh
post-reset observation, stores the transition, and returns it. -/
def step (u : UnderEnv σ Act Obs) (st : BaseEnvState σ Obs) (a : Act) :
    BaseEnvState σ Obs × (Obs × Int × Bool × List (Nat × Nat)) :=
  let out := u.step st.env a
  let s1 := out.1
  let o := out.2.1
  let r := out.2.2.1
  let d := out.2.2.2.1
  let i := out.2.2.2.2
  let s2 := if d then (resetB u s1).1 else s1
  let o2 := if d then (resetB u s1).2 else o
  let st1 : BaseEnvState σ Obs := { env := s2, transition := (o2, r, d, i) }
  (st1, st1.transition)

/-- Trace of the base wrapper over an action list: the sequence of stored
transitions. -/
def run (u : UnderEnv σ Act Obs) (st : BaseEnvState σ Obs) :
    List Act → BaseEnvState σ Obs × List (Obs × Int × Bool × List (Nat × Nat))
  | [] => (st, [])
  | a :: as =>
    let st1 := (step u st a).1
    let tr := (step u st a).2
    ((run u st1 as).1, tr :: (run u st1 as).2)

end BaseEnv

/-- Modelled from the spec: `PendingAction` of the missing
`rlrd/wrappers_rd.py` — an action together with the tick at which it was
sent and the tick at which it is scheduled to be applied. -/
structure PendingAction (Act : Type) where
  action : Act
  sentTick : Nat
  schedTick : Nat
deriving DecidableEq

/-- Modelled from the spec: a pending observation of the missing
`rlrd/wrappers_rd.py` — a raw observation with its production tick and its
scheduled delivery tick. -/
structure PendingObs (Obs : Type) where
  obs : Obs
  producedTick : Nat
  deliveryTick : Nat
deriving DecidableEq

/-- Modelled from the spec: the DelayDistribution contract of the missing
`rlrd/wrappers_rd.py` — two sampling operations over an internal seeded
random source (state modelled as a natural number), each call consuming
exactly one unit of randomness. -/
structure DelaySampler where
  sampleObs : Nat → Nat × Nat
  sampleAct : Nat → Nat × Nat

/-- Modelled from the spec: configuration of the delay wrapper of the
missing `rlrd/wrappers_rd.py`: the two half-open delay ranges, the neutral
action, and the delay distribution. -/
structure DelayConfig (Act : Type) where
  minObsDelay : Nat
  supObsDelay : Nat
  minActDelay : Nat
  supActDelay : Nat
  neutral : Act
  sampler : DelaySampler

/-- Buffer capacity `K = sup_observation_delay + sup_action_delay`, as in
the spec and as consumed by `DelayedMlpModule.__init__` of
`src/agents/sac_models_rd.py` (`buf_size = obs_delay_range.stop +
act_delay_range.stop`). -/
def DelayConfig.bufSize (cfg : DelayConfig Act) : Nat :=
  cfg.supObsDelay + cfg.supActDelay

/-- A linear congruential step, standing in for one unit of randomness of
the internal seeded random source. -/
def lcgNext (s : Nat) : Nat :=
  (s * 1103515245 + 12345) % 2 ^ 31

/-- Modelled from the spec: the Uniform DelayDistribution variant of the
missing `rlrd/wrappers_rd.py` — each delay drawn from its configured
half-open range `[lo, sup)`. -/
def uniformSampler (minO supO minA supA : Nat) : DelaySampler where
  sampleObs := fun s => let s1 := lcgNext s; (minO + s1 % (supO - minO), s1)
  sampleAct := fun s => let s1 := lcgNext s; (minA + s1 % (supA - minA), s1)

/-- Modelled from the spec: a uniform-delay wrapper configuration as built
by `RandomDelayEnv.__init__` of `src/rlrd/envs.py` from the two ranges. -/
def mkUniformConfig (minO supO minA supA : Nat) (neutral : Act) : DelayConfig Act where
  minObsDelay := minO
  supObsDelay := supO
  minActDelay := minA
  supActDelay := supA
  neutral := neutral
  sampler := uniformSampler minO supO minA supA

/-- Modelled from the spec: `RingActionBuffer.push` of the missing
`rlrd/wrappers_rd.py` — append at the tail, evicting from the head
whenever capacity `K` is exceeded. -/
def bufferPush (K : Nat) (buf : List Act) (a : Act) : List Act :=
  let b := buf ++ [a]
  if K < b.length then b.drop (b.length - K) else b

/-- Modelled from the spec: `RingActionBuffer.reset` of the missing
`rlrd/wrappers_rd.py` — refill all `K` slots with the neutral action. -/
def bufferReset (K : Nat) (neutral : Act) : List Act :=
  List.replicate K neutral

/-- Modelled from the spec: full state of the delay wrapper of the missing
`rlrd/wrappers_rd.py` — wrapped environment state, tick counter, action
buffer, pending-action schedule, pending-observation queue, the last
delivered observation, and the random-source state. -/
structure WState (σ Act Obs : Type) where
  env : σ
  tick : Nat
  buffer : List Act
  pendingActs : List (PendingAction Act)
  pendingObss : List (PendingObs Obs)
  lastDelivered : Obs
  rng : Nat
deriving DecidableEq

/-- The augmented observation exposed to the consumer each tick:
`(observation, action_buffer_snapshot, observation_delay, action_delay)`. -/
structure AugObs (Act Obs : Type) where
  obs : Obs
  snapshot : List Act
  obsDelay : Nat
  actDelay : Nat
deriving DecidableEq

/-- Eligible pending actions: those whose scheduled apply tick has been
reached or passed. -/
def eligibleActs (tick : Nat) (ps : List (PendingAction Act)) : List (PendingAction Act) :=
  ps.filter (fun p => decide (p.schedTick ≤ tick))

/-- Of two pending actions, keep the fresher: the later `sent_tick`, ties
broken by the later `scheduled_apply_tick`. -/
def fresherAct (p q : PendingAction Act) : PendingAction Act :=
  if p.sentTick < q.sentTick then q
  else if q.sentTick < p.sentTick then p
  else if p.schedTick < q.schedTick then q
  else p

/-- Select the freshest pending action from a list, `none` on the empty
list. -/
def selectFreshestAct : List (PendingAction Act) → Option (PendingAction Act)
  | [] => none
  | p :: ps => some (ps.foldl fresherAct p)

/-- Eligible pending observations: those whose scheduled delivery tick has
been reached or passed. -/
def eligibleObss (tick : Nat) (qs : List (PendingObs Obs)) : List (PendingObs Obs) :=
  qs.filter (fun o => decide (o.deliveryTick ≤ tick))

/-- Of two pending observations, keep the one with the later
`produced_tick`. -/
def fresherObs (p q : PendingObs Obs) : PendingObs Obs :=
  if p.producedTick < q.producedTick then q else p

/-- Select the freshest pending observation from a list, `none` on the
empty list. -/
def selectFreshestObs : List (PendingObs Obs) → Option (PendingObs Obs)
  | [] => none
  | p :: ps => some (ps.foldl fresherObs p)

/-- The freshness order on pending actions: latest `sent_tick` wins, ties
broken by latest `scheduled_apply_tick`. -/
def actLexLE (p q : PendingAction Act) : Prop :=
  p.sentTick < q.sentTick ∨ (p.sentTick = q.sentTick ∧ p.schedTick ≤ q.schedTick)

/-- Modelled from the spec: action resolution (step 3 of `step` of the
missing `rlrd/wrappers_rd.py`) — among the pending actions whose scheduled
apply tick has been reached, select the one with the latest `sent_tick`
(ties broken by latest `scheduled_apply_tick`), discard every other
eligible entry, and fall back to the neutral action when none is eligible.
Returns the applied action, the selected entry if any, and the remaining
pending list. -/
def resolveAction (neutral : Act) (tick : Nat) (ps : List (PendingAction Act)) :
    Act × Option (PendingAction Act) × List (PendingAction Act) :=
  match selectFreshestAct (eligibleActs tick ps) with
  | none => (neutral, none, ps)
  | some p => (p.action, some p, ps.filter (fun q => decide (tick < q.schedTick)))

/-- Modelled from the spec: observation resolution (step 6 of `step` of
the missing `rlrd/wrappers_rd.py`) — among the queued observations whose
scheduled delivery tick has been reached, deliver the one with the latest
`produced_tick`, removing the delivered and superseded-older entries while
not-yet-eligible entries remain queued; when none is eligible, repeat the
last delivered observation. -/
def resolveObs (last : Obs) (tick : Nat) (qs : List (PendingObs Obs)) :
    Obs × List (PendingObs Obs) :=
  match selectFreshestObs (eligibleObss tick qs) with
  | none => (last, qs)
  | some o => (o.obs, qs.filter (fun q => decide (tick < q.deliveryTick)))

/-- The pending-action list as it stands inside `step` right after the new
`PendingAction` has been inserted (steps 1-2 of the spec's `step`). -/
def stepPs (cfg : DelayConfig Act) (st : WState σ Act Obs) (a : Act) :
    List (PendingAction Act) :=
  st.pendingActs ++ [⟨a, st.tick, st.tick + (cfg.sampler.sampleAct st.rng).1⟩]

/-- The pending-observation queue as it stands inside `step` right after
the fresh raw observation has been enqueued (step 5 of the spec's
`step`). -/
def stepQs (cfg : DelayConfig Act) (u : UnderEnv σ Act Obs)
    (st : WState σ Act Obs) (a : Act) : List (PendingObs Obs) :=
  let resolved := (resolveAction cfg.neutral st.tick (stepPs cfg st a)).1
  let rawObs := (u.step st.env resolved).2.1
  let dObs := (cfg.sampler.sampleObs (cfg.sampler.sampleAct st.rng).2).1
  st.pendingObss ++ [⟨rawObs, st.tick, st.tick + dObs⟩]

/-- Modelled from the spec: `reset` of the delay wrapper of the missing
`rlrd/wrappers_rd.py` — reset the underlying environment, the tick
counter, the action buffer and the pending queues, and produce the initial
augmented observation with delay fields set to the configured minima. -/
def wrapperReset (cfg : DelayConfig Act) (u : UnderEnv σ Act Obs) (s : σ) (rng : Nat) :
    WState σ Act Obs × AugObs Act Obs :=
  let st : WState σ Act Obs :=
    { env := (u.reset s).1, tick := 0, buffer := bufferReset cfg.bufSize cfg.neutral,
      pendingActs := [], pendingObss := [], lastDelivered := (u.reset s).2, rng := rng }
  (st, { obs := (u.reset s).2, snapshot := st.buffer, obsDelay := cfg.minObsDelay,
         actDelay := cfg.minActDelay })

/-- Record of one `step` of the delay wrapper: everything returned to the
consumer plus the resolution bookkeeping (the applied action, the selected
pending entry if any, and the freshly sampled delays). -/
structure StepRec (σ Act Obs : Type) where
  aug : AugObs Act Obs
  reward : Int
  done : Bool
  info : List (Nat × Nat)
  appliedAction : Act
  appliedEntry : Option (PendingAction Act)
  deliveredObs : Obs
  obsDelaySample : Nat
  actDelaySample : Nat
deriving DecidableEq

/-- Modelled from the spec: `step` of the delay wrapper of the missing
`rlrd/wrappers_rd.py`. Samples the action delay, inserts the new pending
action and pushes it into the buffer, resolves and applies the freshest
eligible pending action (neutral if none), steps the underlying
environment, samples the observation delay, enqueues the raw observation,
resolves the freshest eligible pending observation (repeating the last
delivered one if none), assembles the augmented observation, increments
the tick, and folds a `done` step into an immediate internal reset. -/
def wrapperStep (cfg : DelayConfig Act) (u : UnderEnv σ Act Obs)
    (st : WState σ Act Obs) (a : Act) : WState σ Act Obs × StepRec σ Act Obs :=
  let dAct := (cfg.sampler.sampleAct st.rng).1
  let rng1 := (cfg.sampler.sampleAct st.rng).2
  let ps := st.pendingActs ++ [⟨a, st.tick, st.tick + dAct⟩]
  let buf := bufferPush cfg.bufSize st.buffer a
  let resolved := (resolveAction cfg.neutral st.tick ps).1
  let sel := (resolveAction cfg.neutral st.tick ps).2.1
  let ps1 := (resolveAction cfg.neutral st.tick ps).2.2
  let out := u.step st.env resolved
  let env1 := out.1
  let rawObs := out.2.1
  let reward := out.2.2.1
  let done := out.2.2.2.1
  let info := out.2.2.2.2
  let dObs := (cfg.sampler.sampleObs rng1).1
  let rng2 := (cfg.sampler.sampleObs rng1).2
  let qs := st.pendingObss ++ [⟨rawObs, st.tick, st.tick + dObs⟩]
  let delivered := (resolveObs st.lastDelivered st.tick qs).1
  let qs1 := (resolveObs st.lastDelivered st.tick qs).2
  let rec1 : StepRec σ Act Obs :=
    { aug := (wrapperReset cfg u env1 rng2).2, reward := reward, done := done,
      info := info, appliedAction := resolved, appliedEntry := sel,
      deliveredObs := delivered, obsDelaySample := dObs, actDelaySample := dAct }
  let rec2 : StepRec σ Act Obs :=
    { aug := { obs := delivered, snapshot := buf, obsDelay := dObs,
               actDelay := dAct },
      reward := reward, done := done, info := info,
      appliedAction := resolved, appliedEntry := sel,
      deliveredObs := delivered, obsDelaySample := dObs, actDelaySample := dAct }
  if done then ((wrapperReset cfg u env1 rng2).1, rec1)
  else
    ({ env := env1, tick := st.tick + 1, buffer := buf, pendingActs := ps1,
       pendingObss := qs1, lastDelivered := delivered, rng := rng2 }, rec2)

/-- Run the delay wrapper over a scripted action list, collecting the
per-step records. -/
def wrapperRun (cfg : DelayConfig Act) (u : UnderEnv σ Act Obs)
    (st : WState σ Act Obs) : List Act → WState σ Act Obs × List (StepRec σ Act Obs)
  | [] => (st, [])
  | a :: as =>
    let st1 := (wrapperStep cfg u st a).1
    let r := (wrapperStep cfg u st a).2
    ((wrapperRun cfg u st1 as).1, r :: (wrapperRun cfg u st1 as).2)

/-- Modelled from the spec: full deterministic replay of the delay wrapper
from a seed — `reset()` followed by a scripted action sequence, returning
the initial augmented observation, the per-step records, and the final
state. -/
def wrapperReplay (cfg : DelayConfig Act) (u : UnderEnv σ Act Obs) (s : σ)
    (seed : Nat) (acts : List Act) :
    AugObs Act Obs × List (StepRec σ Act Obs) × WState σ Act Obs :=
  let st := (wrapperReset cfg u s seed).1
  let aug0 := (wrapperReset cfg u s seed).2
  ((aug0, (wrapperRun cfg u st acts).2, (wrapperRun cfg u st acts).1))

/-- The wrapped-environment value built by `RandomDelayEnv.__init__` of
`src/rlrd/envs.py`: either a `RandomDelayWrapper` carrying the two delay
ranges, or one of the two wifi wrappers, which are constructed from the
inner environment alone. -/
inductive BuiltWrapper (σ : Type) where
  | randomDelay (env : σ) (minObs supObs minAct supAct : Nat)
  | wifi1 (env : σ)
  | wifi2 (env : σ)
deriving DecidableEq

/-- The `real_world_sampler` dispatch of `RandomDelayEnv.__init__` of
`src/rlrd/envs.py` (lines 116-123): `0` builds a `RandomDelayWrapper` from
the two ranges, `1` and `2` build the wifi wrappers from the environment
alone, and any other value fails the assertion (modelled as `none`). -/
def randomDelayEnvBuild (realWorldSampler : Nat)
    (minObs supObs minAct supAct : Nat) (env : σ) : Option (BuiltWrapper σ) :=
  if realWorldSampler = 0 then
    some (.randomDelay env minObs supObs minAct supAct)
  else if realWorldSampler = 1 then some (.wifi1 env)
  else if realWorldSampler = 2 then some (.wifi2 env)
  else none

/-- Construction-time configuration error of the delay wrapper. -/
inductive ConfigurationError where
  | invalidRange
deriving DecidableEq

/-- A delay range `[lo, sup)` is valid when `0 ≤ lo < sup`. -/
def validRange (lo sup : Int) : Bool :=
  decide (0 ≤ lo) && decide (lo < sup)

/-- Modelled from the spec: construction-time validation of the delay
wrapper of the missing `rlrd/wrappers_rd.py` — construction fails with
`ConfigurationError` if `min ≥ sup` or `min < 0` for either delay kind,
and otherwise yields the uniform configuration. -/
def mkRandomDelayWrapper (minO supO minA supA : Int) (neutral : Act) :
    Except ConfigurationError (DelayConfig Act) :=
  if validRange minO supO && validRange minA supA then
    .ok (mkUniformConfig minO.toNat supO.toNat minA.toNat supA.toNat neutral)
  else
    .error .invalidRange

/-! Concrete collaborators used for scenarios and witnesses. -/

/-- A recording environment: its state is the list of actions applied to
it so far; the observation is the number of steps taken. -/
def recEnv : UnderEnv (List Int) Int Nat where
  reset := fun _ => ([], 0)
  step := fun s a => (s ++ [a], s.length + 1, 0, false, [])

/-- A counting environment: state counts the steps taken, the raw
observation at tick `t` is `t`, and the initial observation is `1000`. -/
def countEnv : UnderEnv Nat Int Nat where
  reset := fun _ => (0, 1000)
  step := fun s _ => (s + 1, s, 0, false, [])

/-- An environment whose every step is terminal, with reward `7` and
post-reset observation `99`. -/
def doneEnv : UnderEnv Nat Int Nat where
  reset := fun _ => (0, 99)
  step := fun s _ => (s + 1, 5, 7, true, [])

/-- Delay configuration for the freshness tie-break scenario: the sampled
action delay is `1` on the first draw and `0` afterwards, observation
delays are `0`. -/
def cfgTieBreak : DelayConfig Int where
  minObsDelay := 0
  supObsDelay := 1
  minActDelay := 0
  supActDelay := 2
  neutral := 0
  sampler :=
    { sampleObs := fun s => (0, s + 1),
      sampleAct := fun s => (if s = 0 then 1 else 0, s + 1) }

/-- Delay configuration for the observation-hold scenario: every sampled
observation delay is `3`, every sampled action delay is `0`. -/
def cfgObsHold : DelayConfig Int where
  minObsDelay := 0
  supObsDelay := 8
  minActDelay := 0
  supActDelay := 2
  neutral := 0
  sampler := { sampleObs := fun s => (3, s), sampleAct := fun s => (0, s) }

/-- The degenerate zero-delay configuration
`min_observation_delay = 0, sup_observation_delay = 1,
min_action_delay = 0, sup_action_delay = 1`. -/
def cfgDegenerate : DelayConfig Int := mkUniformConfig 0 1 0 1 0

end Rlrd

namespace Rlrd

/-- C10: constructing the `Env` auto-reset wrapper resets the wrapped
environment, and immediately after construction the `transition` attribute
equals `(initial reset observation, 0., True, empty info)`; after every
`step` call the `transition` attribute equals exactly the 4-tuple that
`step` returned. -/
theorem baseEnv_construction_and_step_transition {σ Act Obs : Type}
    (u : UnderEnv σ Act Obs) (s : σ) :
    (BaseEnv.init u s).env = (u.reset s).1 ∧
    (BaseEnv.init u s).transition = ((u.reset s).2, 0, true, []) ∧
    ∀ (st : BaseEnvState σ Obs) (a : Act),
      (BaseEnv.step u st a).2 = (BaseEnv.step u st a).1.transition := by
  refine ⟨rfl, rfl, fun st a => ?_⟩
  rfl

/-- C7: when the underlying environment returns `done = true`, `Env.step`
performs an immediate internal reset before returning, and the returned
transition carries the fresh post-reset observation as its next state
together with the terminal reward, `done = true`, and the info mapping. -/
theorem baseEnv_step_done_auto_reset {σ Act Obs : Type}
    (u : UnderEnv σ Act Obs) (st : BaseEnvState σ Obs) (a : Act)
    (h : (u.step st.env a).2.2.2.1 = true) :
    BaseEnv.step u st a =
      ({ env := (u.reset (u.step st.env a).1).1,
         transition := ((u.reset (u.step st.env a).1).2,
                        (u.step st.env a).2.2.1, true,
                        (u.step st.env a).2.2.2.2) },
       ((u.reset (u.step st.env a).1).2, (u.step st.env a).2.2.1, true,
        (u.step st.env a).2.2.2.2)) := by
  simp only [BaseEnv.step, BaseEnv.resetB, h, if_true]

/-- Witness for C7 at a concrete terminal environment. -/
theorem baseEnv_step_done_auto_reset_witness :
    BaseEnv.step doneEnv { env := 3, transition := (99, 0, true, []) } 1 =
      ({ env := 0, transition := (99, 7, true, []) }, (99, 7, true, [])) :=
  baseEnv_step_done_auto_reset doneEnv { env := 3, transition := (99, 0, true, []) } 1 rfl

/-- C9: when a wifi delay variant is selected (`real_world_sampler = 1` or
`2`), the constructed wrapped environment is the same for every choice of
the four delay-range parameters. -/
theorem wifiVariant_ignores_delay_ranges {σ : Type} (rws : Nat)
    (h : rws = 1 ∨ rws = 2) (m1 s1 m2 s2 n1 t1 n2 t2 : Nat) (env : σ) :
    randomDelayEnvBuild rws m1 s1 m2 s2 env =
      randomDelayEnvBuild rws n1 t1 n2 t2 env := by
  rcases h with h | h <;> subst h <;> rfl

/-- Witness for C9 at `real_world_sampler = 1`. -/
theorem wifiVariant_ignores_delay_ranges_witness :
    randomDelayEnvBuild 1 0 8 0 2 (42 : Nat) = randomDelayEnvBuild 1 3 9 1 5 (42 : Nat) :=
  wifiVariant_ignores_delay_ranges 1 (Or.inl rfl) 0 8 0 2 3 9 1 5 42

/-- C8: construction of the delay wrapper fails with `ConfigurationError`
exactly when `min ≥ sup` or `min < 0` holds for either delay range. -/
theorem mkRandomDelayWrapper_validation {Act : Type}
    (minO supO minA supA : Int) (neutral : Act) :
    mkRandomDelayWrapper minO supO minA supA neutral =
        Except.error ConfigurationError.invalidRange ↔
      (minO < 0 ∨ supO ≤ minO ∨ minA < 0 ∨ supA ≤ minA) := by
  by_cases hv : (validRange minO supO && validRange minA supA) = true
  · rw [mkRandomDelayWrapper, if_pos hv]
    simp only [validRange, Bool.and_eq_true, decide_eq_true_eq] at hv
    simp only [reduceCtorEq, false_iff]
    omega
  · rw [mkRandomDelayWrapper, if_neg hv]
    simp only [validRange, Bool.and_eq_true, decide_eq_true_eq, not_and_or] at hv
    simp only [true_iff]
    omega

/-- C5: for a fixed seed and a fixed scripted action sequence, two replays
produce identical sequences of resolved actions, delivered observations
and sampled delays, and identical full outputs. -/
theorem wrapperReplay_deterministic {σ Act Obs : Type} (cfg : DelayConfig Act)
    (u : UnderEnv σ Act Obs) (s : σ) (seed1 seed2 : Nat)
    (acts1 acts2 : List Act) (hs : seed1 = seed2) (ha : acts1 = acts2) :
    (wrapperReplay cfg u s seed1 acts1).2.1.map
        (fun r => (r.appliedAction, r.deliveredObs, r.obsDelaySample, r.actDelaySample)) =
      (wrapperReplay cfg u s seed2 acts2).2.1.map
        (fun r => (r.appliedAction, r.deliveredObs, r.obsDelaySample, r.actDelaySample)) ∧
    wrapperReplay cfg u s seed1 acts1 = wrapperReplay cfg u s seed2 acts2 := by
  subst hs; subst ha; exact ⟨rfl, rfl⟩

/-- A push onto a full buffer evicts exactly one head element, keeping the
length at the capacity. -/
theorem bufferPush_length {Act : Type} (K : Nat) (buf : List Act) (a : Act)
    (h : buf.length = K) : (bufferPush K buf a).length = K := by
  have hlen : (buf ++ [a]).length = K + 1 := by simp [h]
  simp only [bufferPush, hlen]
  rw [if_pos (by omega)]
  simp [hlen]

/-- Resetting the buffer yields a list of the capacity's length. -/
theorem bufferReset_length {Act : Type} (K : Nat) (n : Act) :
    (bufferReset K n).length = K := by
  simp [bufferReset]

/-- One wrapper step keeps the action buffer, and the snapshot it exposes,
at the configured capacity. -/
theorem wrapperStep_buffer_length {σ Act Obs : Type} (cfg : DelayConfig Act)
    (u : UnderEnv σ Act Obs) (st : WState σ Act Obs) (a : Act)
    (h : st.buffer.length = cfg.bufSize) :
    (wrapperStep cfg u st a).1.buffer.length = cfg.bufSize ∧
    (wrapperStep cfg u st a).2.aug.snapshot.length = cfg.bufSize := by
  simp only [wrapperStep]
  split
  · exact ⟨bufferReset_length _ _, bufferReset_length _ _⟩
  · exact ⟨bufferPush_length _ _ _ h, bufferPush_length _ _ _ h⟩

/-- Along any run, the buffer length invariant is preserved and every
exposed snapshot has the configured capacity. -/
theorem wrapperRun_buffer_length {σ Act Obs : Type} (cfg : DelayConfig Act)
    (u : UnderEnv σ Act Obs) (acts : List Act) :
    ∀ st : WState σ Act Obs, st.buffer.length = cfg.bufSize →
      (wrapperRun cfg u st acts).1.buffer.length = cfg.bufSize ∧
      ∀ r ∈ (wrapperRun cfg u st acts).2, r.aug.snapshot.length = cfg.bufSize := by
  induction acts with
  | nil => intro st h; simpa [wrapperRun] using h
  | cons a as ih =>
    intro st h
    have hs := wrapperStep_buffer_length cfg u st a h
    have hrest := ih (wrapperStep cfg u st a).1 hs.1
    simp only [wrapperRun]
    refine ⟨hrest.1, ?_⟩
    intro r hr
    rcases List.mem_cons.mp hr with hr | hr
    · exact hr ▸ hs.2
    · exact hrest.2 r hr

/-- Each step record exposes exactly the outcome of the spec's resolution
operations: the applied action and selected entry come from
`resolveAction` on the freshly extended pending list, the delivered
observation comes from `resolveObs` on the freshly extended queue, and the
`done` flag is the underlying environment's. -/
theorem wrapperStep_resolution_fields {σ Act Obs : Type} (cfg : DelayConfig Act)
    (u : UnderEnv σ Act Obs) (st : WState σ Act Obs) (a : Act) :
    (wrapperStep cfg u st a).2.appliedAction =
        (resolveAction cfg.neutral st.tick (stepPs cfg st a)).1 ∧
    (wrapperStep cfg u st a).2.appliedEntry =
        (resolveAction cfg.neutral st.tick (stepPs cfg st a)).2.1 ∧
    (wrapperStep cfg u st a).2.deliveredObs =
        (resolveObs st.lastDelivered st.tick (stepQs cfg u st a)).1 ∧
    (wrapperStep cfg u st a).2.done =
        (u.step st.env (resolveAction cfg.neutral st.tick (stepPs cfg st a)).1).2.2.2.1 ∧
    (wrapperStep cfg u st a).2.reward =
        (u.step st.env (resolveAction cfg.neutral st.tick (stepPs cfg st a)).1).2.2.1 ∧
    (wrapperStep cfg u st a).2.info =
        (u.step st.env (resolveAction cfg.neutral st.tick (stepPs cfg st a)).1).2.2.2.2 := by
  refine ⟨?_, ?_, ?_, ?_, ?_, ?_⟩ <;> (simp only [wrapperStep]; split <;> rfl)

/-- Shape of the post-step state and augmented observation on a
non-terminal step. -/
theorem wrapperStep_not_done_state {σ Act Obs : Type} (cfg : DelayConfig Act)
    (u : UnderEnv σ Act Obs) (st : WState σ Act Obs) (a : Act)
    (hc : (u.step st.env (resolveAction cfg.neutral st.tick (stepPs cfg st a)).1).2.2.2.1 = false) :
    (wrapperStep cfg u st a).1 =
      { env := (u.step st.env (resolveAction cfg.neutral st.tick (stepPs cfg st a)).1).1,
        tick := st.tick + 1,
        buffer := bufferPush cfg.bufSize st.buffer a,
        pendingActs := (resolveAction cfg.neutral st.tick (stepPs cfg st a)).2.2,
        pendingObss := (resolveObs st.lastDelivered st.tick (stepQs cfg u st a)).2,
        lastDelivered := (resolveObs st.lastDelivered st.tick (stepQs cfg u st a)).1,
        rng := (cfg.sampler.sampleObs (cfg.sampler.sampleAct st.rng).2).2 } ∧
    (wrapperStep cfg u st a).2.aug =
      { obs := (resolveObs st.lastDelivered st.tick (stepQs cfg u st a)).1,
        snapshot := bufferPush cfg.bufSize st.buffer a,
        obsDelay := (cfg.sampler.sampleObs (cfg.sampler.sampleAct st.rng).2).1,
        actDelay := (cfg.sampler.sampleAct st.rng).1 } := by
  simp only [stepPs] at hc
  constructor <;> (simp only [wrapperStep]; rw [if_neg (by simp [hc])]) <;> rfl

/-- Shape of the post-step state and augmented observation on a terminal
step: the wrapper folds into an immediate internal reset. -/
theorem wrapperStep_done_state {σ Act Obs : Type} (cfg : DelayConfig Act)
    (u : UnderEnv σ Act Obs) (st : WState σ Act Obs) (a : Act)
    (hc : (u.step st.env (resolveAction cfg.neutral st.tick (stepPs cfg st a)).1).2.2.2.1 = true) :
    (wrapperStep cfg u st a).1 =
      (wrapperReset cfg u
        (u.step st.env (resolveAction cfg.neutral st.tick (stepPs cfg st a)).1).1
        (cfg.sampler.sampleObs (cfg.sampler.sampleAct st.rng).2).2).1 ∧
    (wrapperStep cfg u st a).2.aug =
      (wrapperReset cfg u
        (u.step st.env (resolveAction cfg.neutral st.tick (stepPs cfg st a)).1).1
        (cfg.sampler.sampleObs (cfg.sampler.sampleAct st.rng).2).2).2 := by
  simp only [stepPs] at hc
  constructor <;> (simp only [wrapperStep]; rw [if_pos hc]) <;> rfl

/-- `fresherObs` returns one of its two arguments. -/
theorem fresherObs_cases {Obs : Type} (p q : PendingObs Obs) :
    fresherObs p q = p ∨ fresherObs p q = q := by
  unfold fresherObs
  split <;> simp

/-- Both arguments of `fresherObs` have a produced tick at most that of
the result. -/
theorem fresherObs_le {Obs : Type} (p q : PendingObs Obs) :
    p.producedTick ≤ (fresherObs p q).producedTick ∧
    q.producedTick ≤ (fresherObs p q).producedTick := by
  unfold fresherObs
  split <;> omega

/-- The fold of `fresherObs` stays inside the candidate set. -/
theorem foldl_fresherObs_mem {Obs : Type} (qs : List (PendingObs Obs)) :
    ∀ p : PendingObs Obs, qs.foldl fresherObs p = p ∨ qs.foldl fresherObs p ∈ qs := by
  induction qs with
  | nil => intro p; left; rfl
  | cons q qs ih =>
    intro p
    have hstep := fresherObs_cases p q
    rcases ih (fresherObs p q) with h | h
    · rw [List.foldl_cons, h]
      rcases hstep with h2 | h2
      · left; exact h2
      · right; rw [h2]; exact List.mem_cons_self q qs
    · right
      rw [List.foldl_cons]
      exact List.mem_cons_of_mem q h

/-- The fold of `fresherObs` dominates its seed and every candidate. -/
theorem foldl_fresherObs_le {Obs : Type} (qs : List (PendingObs Obs)) :
    ∀ p : PendingObs Obs,
      p.producedTick ≤ (qs.foldl fresherObs p).producedTick ∧
      ∀ q ∈ qs, q.producedTick ≤ (qs.foldl fresherObs p).producedTick := by
  induction qs with
  | nil => intro p; exact ⟨Nat.le_refl _, by intro q hq; cases hq⟩
  | cons q qs ih =>
    intro p
    have h1 := fresherObs_le p q
    have h2 := ih (fresherObs p q)
    rw [List.foldl_cons]
    refine ⟨Nat.le_trans h1.1 h2.1, ?_⟩
    intro r hr
    rcases List.mem_cons.mp hr with hr | hr
    · subst hr; exact Nat.le_trans h1.2 h2.1
    · exact h2.2 r hr

/-- A selected freshest observation belongs to the candidate list and has
the latest produced tick among it. -/
theorem selectFreshestObs_spec {Obs : Type} (l : List (PendingObs Obs))
    (p : PendingObs Obs) (h : selectFreshestObs l = some p) :
    p ∈ l ∧ ∀ q ∈ l, q.producedTick ≤ p.producedTick := by
  cases l with
  | nil => cases h
  | cons q qs =>
    simp only [selectFreshestObs, Option.some.injEq] at h
    subst h
    constructor
    · rcases foldl_fresherObs_mem qs q with h | h
      · rw [h]; exact List.mem_cons_self q qs
      · exact List.mem_cons_of_mem q h
    · intro r hr
      rcases List.mem_cons.mp hr with hr | hr
      · exact hr ▸ (foldl_fresherObs_le qs q).1
      · exact (foldl_fresherObs_le qs q).2 r hr

/-- The freshest-observation selection returns `none` exactly on the empty
list. -/
theorem selectFreshestObs_eq_none {Obs : Type} (l : List (PendingObs Obs)) :
    selectFreshestObs l = none ↔ l = [] := by
  cases l <;> simp [selectFreshestObs]

/-- Characterization of observation resolution: with no eligible entry the
last delivered observation is repeated and the queue is untouched;
otherwise the eligible entry with the latest produced tick is delivered
and exactly the not-yet-eligible entries remain queued. -/
theorem resolveObs_spec {Obs : Type} (last : Obs) (tick : Nat)
    (qs : List (PendingObs Obs)) :
    (eligibleObss tick qs = [] → resolveObs last tick qs = (last, qs)) ∧
    (eligibleObss tick qs ≠ [] →
      ∃ p, p ∈ eligibleObss tick qs ∧
        (resolveObs last tick qs).1 = p.obs ∧
        (∀ q ∈ eligibleObss tick qs, q.producedTick ≤ p.producedTick) ∧
        (resolveObs last tick qs).2 =
          qs.filter (fun q => decide (tick < q.deliveryTick))) := by
  constructor
  · intro h
    unfold resolveObs
    rw [h]
    rfl
  · intro h
    unfold resolveObs
    cases hsel : selectFreshestObs (eligibleObss tick qs) with
    | none => exact absurd ((selectFreshestObs_eq_none _).mp hsel) h
    | some p =>
      have hspec := selectFreshestObs_spec _ p hsel
      exact ⟨p, hspec.1, rfl, hspec.2, rfl⟩

/-- C2: each step delivers, among queued observations whose scheduled
delivery tick has been reached, the one with the latest produced tick,
repeating the last delivered observation when none is eligible; delivered
and superseded-older entries leave the queue while not-yet-eligible ones
remain; and in the observation-hold scenario (delay 3 sampled at tick 0,
nothing delivered before) ticks 0-2 deliver the post-reset initial
observation and tick 3 delivers the observation produced at tick 0. -/
theorem observation_resolution_correct {σ Act Obs : Type}
    (cfg : DelayConfig Act) (u : UnderEnv σ Act Obs) (st : WState σ Act Obs)
    (a : Act) :
    (wrapperStep cfg u st a).2.deliveredObs =
        (resolveObs st.lastDelivered st.tick (stepQs cfg u st a)).1 ∧
    ((wrapperStep cfg u st a).2.done = false →
      (wrapperStep cfg u st a).2.aug.obs = (wrapperStep cfg u st a).2.deliveredObs ∧
      (wrapperStep cfg u st a).1.pendingObss =
        (resolveObs st.lastDelivered st.tick (stepQs cfg u st a)).2 ∧
      (wrapperStep cfg u st a).1.lastDelivered =
        (wrapperStep cfg u st a).2.deliveredObs) ∧
    (∀ (last : Obs) (tick : Nat) (qs : List (PendingObs Obs)),
      (eligibleObss tick qs = [] → resolveObs last tick qs = (last, qs)) ∧
      (eligibleObss tick qs ≠ [] →
        ∃ p, p ∈ eligibleObss tick qs ∧
          (resolveObs last tick qs).1 = p.obs ∧
          (∀ q ∈ eligibleObss tick qs, q.producedTick ≤ p.producedTick) ∧
          (resolveObs last tick qs).2 =
            qs.filter (fun q => decide (tick < q.deliveryTick)))) ∧
    (wrapperReplay cfgObsHold countEnv 0 0 [1, 2, 3, 4]).2.1.map
        (fun r => r.aug.obs) = [1000, 1000, 1000, 0] := by
  have hf := wrapperStep_resolution_fields cfg u st a
  refine ⟨hf.2.2.1, ?_, fun last tick qs => resolveObs_spec last tick qs, by decide⟩
  intro h
  have hc : (u.step st.env (resolveAction cfg.neutral st.tick (stepPs cfg st a)).1).2.2.2.1 = false := by
    rw [← hf.2.2.2.1]; exact h
  have hs := wrapperStep_not_done_state cfg u st a hc
  refine ⟨?_, ?_, ?_⟩
  · rw [hs.2, hf.2.2.1]
  · rw [hs.1]
  · rw [hs.1, hf.2.2.1]

/-- Witness for C2: a concrete non-terminal step and the concrete
observation-hold scenario. -/
theorem observation_resolution_correct_witness :
    (wrapperStep cfgObsHold countEnv (wrapperReset cfgObsHold countEnv 0 0).1 1).2.aug.obs =
      (wrapperStep cfgObsHold countEnv (wrapperReset cfgObsHold countEnv 0 0).1 1).2.deliveredObs ∧
    (wrapperReplay cfgObsHold countEnv 0 0 [1, 2, 3, 4]).2.1.map
        (fun r => r.aug.obs) = [1000, 1000, 1000, 0] := by
  have h := observation_resolution_correct cfgObsHold countEnv
    (wrapperReset cfgObsHold countEnv 0 0).1 1
  exact ⟨(h.2.1 (by decide)).1, h.2.2.2⟩

/-- The freshness order is reflexive. -/
theorem actLexLE_refl {Act : Type} (p : PendingAction Act) : actLexLE p p := by
  unfold actLexLE
  omega

/-- The freshness order is transitive. -/
theorem actLexLE_trans {Act : Type} (p q r : PendingAction Act)
    (h1 : actLexLE p q) (h2 : actLexLE q r) : actLexLE p r := by
  unfold actLexLE at h1 h2 ⊢
  omega

/-- `fresherAct` returns one of its two arguments. -/
theorem fresherAct_cases {Act : Type} (p q : PendingAction Act) :
    fresherAct p q = p ∨ fresherAct p q = q := by
  unfold fresherAct
  split_ifs <;> simp

/-- Both arguments of `fresherAct` are below the result in the freshness
order. -/
theorem fresherAct_le {Act : Type} (p q : PendingAction Act) :
    actLexLE p (fresherAct p q) ∧ actLexLE q (fresherAct p q) := by
  unfold fresherAct actLexLE
  split_ifs <;> omega

/-- The fold of `fresherAct` stays inside the candidate set. -/
theorem foldl_fresherAct_mem {Act : Type} (ps : List (PendingAction Act)) :
    ∀ p : PendingAction Act, ps.foldl fresherAct p = p ∨ ps.foldl fresherAct p ∈ ps := by
  induction ps with
  | nil => intro p; left; rfl
  | cons q qs ih =>
    intro p
    rcases ih (fresherAct p q) with h | h
    · rw [List.foldl_cons, h]
      rcases fresherAct_cases p q with h2 | h2
      · left; exact h2
      · right; rw [h2]; exact List.mem_cons_self q qs
    · right
      rw [List.foldl_cons]
      exact List.mem_cons_of_mem q h

/-- The fold of `fresherAct` dominates its seed and every candidate in the
freshness order. -/
theorem foldl_fresherAct_le {Act : Type} (ps : List (PendingAction Act)) :
    ∀ p : PendingAction Act,
      actLexLE p (ps.foldl fresherAct p) ∧
      ∀ q ∈ ps, actLexLE q (ps.foldl fresherAct p) := by
  induction ps with
  | nil => intro p; exact ⟨actLexLE_refl p, by intro q hq; cases hq⟩
  | cons q qs ih =>
    intro p
    have h1 := fresherAct_le p q
    have h2 := ih (fresherAct p q)
    rw [List.foldl_cons]
    refine ⟨actLexLE_trans _ _ _ h1.1 h2.1, ?_⟩
    intro r hr
    rcases List.mem_cons.mp hr with hr | hr
    · subst hr; exact actLexLE_trans _ _ _ h1.2 h2.1
    · exact h2.2 r hr

/-- A selected freshest pending action belongs to the candidate list and
dominates it in the freshness order. -/
theorem selectFreshestAct_spec {Act : Type} (l : List (PendingAction Act))
    (p : PendingAction Act) (h : selectFreshestAct l = some p) :
    p ∈ l ∧ ∀ q ∈ l, actLexLE q p := by
  cases l with
  | nil => cases h
  | cons q qs =>
    simp only [selectFreshestAct, Option.some.injEq] at h
    subst h
    constructor
    · rcases foldl_fresherAct_mem qs q with h | h
      · rw [h]; exact List.mem_cons_self q qs
      · exact List.mem_cons_of_mem q h
    · intro r hr
      rcases List.mem_cons.mp hr with hr | hr
      · exact hr ▸ (foldl_fresherAct_le qs q).1
      · exact (foldl_fresherAct_le qs q).2 r hr

/-- The freshest-action selection returns `none` exactly on the empty
list. -/
theorem selectFreshestAct_eq_none {Act : Type} (l : List (PendingAction Act)) :
    selectFreshestAct l = none ↔ l = [] := by
  cases l <;> simp [selectFreshestAct]

/-- The selected entry of action resolution is exactly the freshest
eligible pending action. -/
theorem resolveAction_selected {Act : Type} (neutral : Act) (tick : Nat)
    (ps : List (PendingAction Act)) :
    (resolveAction neutral tick ps).2.1 = selectFreshestAct (eligibleActs tick ps) := by
  unfold resolveAction
  cases selectFreshestAct (eligibleActs tick ps) <;> rfl

/-- When an entry is selected, action resolution applies its action and
keeps exactly the not-yet-eligible entries pending. -/
theorem resolveAction_of_selected {Act : Type} (neutral : Act) (tick : Nat)
    (ps : List (PendingAction Act)) (p : PendingAction Act)
    (h : selectFreshestAct (eligibleActs tick ps) = some p) :
    (resolveAction neutral tick ps).1 = p.action ∧
    (resolveAction neutral tick ps).2.2 =
      ps.filter (fun q => decide (tick < q.schedTick)) := by
  unfold resolveAction
  rw [h]
  exact ⟨rfl, rfl⟩

/-- Every entry surviving action resolution was already pending. -/
theorem resolveAction_remaining_mem {Act : Type} (neutral : Act) (tick : Nat)
    (ps : List (PendingAction Act)) :
    ∀ q ∈ (resolveAction neutral tick ps).2.2, q ∈ ps := by
  unfold resolveAction
  cases selectFreshestAct (eligibleActs tick ps) with
  | none => intro q hq; exact hq
  | some p => intro q hq; exact List.mem_of_mem_filter hq

/-- Characterization of action resolution: with no eligible entry the
neutral action is applied and the pending list is untouched; otherwise the
freshest eligible entry (latest sent tick, ties broken by latest scheduled
tick) is applied and exactly the not-yet-eligible entries remain. -/
theorem resolveAction_spec {Act : Type} (neutral : Act) (tick : Nat)
    (ps : List (PendingAction Act)) :
    (eligibleActs tick ps = [] →
      resolveAction neutral tick ps = (neutral, none, ps)) ∧
    (eligibleActs tick ps ≠ [] →
      ∃ p, p ∈ eligibleActs tick ps ∧
        (resolveAction neutral tick ps).1 = p.action ∧
        (resolveAction neutral tick ps).2.1 = some p ∧
        (∀ q ∈ eligibleActs tick ps, actLexLE q p) ∧
        (resolveAction neutral tick ps).2.2 =
          ps.filter (fun q => decide (tick < q.schedTick))) := by
  constructor
  · intro h
    unfold resolveAction
    rw [h]
    rfl
  · intro h
    cases hsel : selectFreshestAct (eligibleActs tick ps) with
    | none => exact absurd ((selectFreshestAct_eq_none _).mp hsel) h
    | some p =>
      have hspec := selectFreshestAct_spec _ p hsel
      have hres := resolveAction_of_selected neutral tick ps p hsel
      refine ⟨p, hspec.1, hres.1, ?_, hspec.2, hres.2⟩
      rw [resolveAction_selected, hsel]

/-- Every member of the freshly extended pending list was sent no later
than the current tick, given that previously pending entries were sent
strictly earlier. -/
theorem stepPs_sentTick {σ Act Obs : Type} (cfg : DelayConfig Act)
    (st : WState σ Act Obs) (a : Act)
    (hinv : ∀ p ∈ st.pendingActs, p.sentTick < st.tick) :
    ∀ p ∈ stepPs cfg st a, p.sentTick ≤ st.tick := by
  intro p hp
  simp only [stepPs] at hp
  rcases List.mem_append.mp hp with hp | hp
  · exact Nat.le_of_lt (hinv p hp)
  · rw [List.mem_singleton.mp hp]

/-- Entries pending after a step come from the freshly extended pending
list. -/
theorem wrapperStep_pending_mem {σ Act Obs : Type} (cfg : DelayConfig Act)
    (u : UnderEnv σ Act Obs) (st : WState σ Act Obs) (a : Act) :
    ∀ p ∈ (wrapperStep cfg u st a).1.pendingActs, p ∈ stepPs cfg st a := by
  cases hc : (u.step st.env
      (resolveAction cfg.neutral st.tick (stepPs cfg st a)).1).2.2.2.1 with
  | true =>
    have hs := wrapperStep_done_state cfg u st a hc
    rw [hs.1]
    intro p hp
    simp [wrapperReset] at hp
  | false =>
    have hs := wrapperStep_not_done_state cfg u st a hc
    rw [hs.1]
    intro p hp
    exact resolveAction_remaining_mem cfg.neutral st.tick (stepPs cfg st a) p hp

/-- One step preserves the invariant that every pending entry was sent
strictly before the current tick. -/
theorem wrapperStep_sentTick_inv {σ Act Obs : Type} (cfg : DelayConfig Act)
    (u : UnderEnv σ Act Obs) (st : WState σ Act Obs) (a : Act)
    (hinv : ∀ p ∈ st.pendingActs, p.sentTick < st.tick) :
    ∀ p ∈ (wrapperStep cfg u st a).1.pendingActs,
      p.sentTick < (wrapperStep cfg u st a).1.tick := by
  cases hc : (u.step st.env
      (resolveAction cfg.neutral st.tick (stepPs cfg st a)).1).2.2.2.1 with
  | true =>
    have hs := wrapperStep_done_state cfg u st a hc
    rw [hs.1]
    intro p hp
    simp [wrapperReset] at hp
  | false =>
    have hs := wrapperStep_not_done_state cfg u st a hc
    rw [hs.1]
    intro p hp
    have hm := resolveAction_remaining_mem cfg.neutral st.tick (stepPs cfg st a) p hp
    have := stepPs_sentTick cfg st a hinv p hm
    show p.sentTick < st.tick + 1
    omega

/-- The entry a step applies is in the freshly extended pending list and
its scheduled tick has been reached. -/
theorem wrapperStep_appliedEntry_mem {σ Act Obs : Type} (cfg : DelayConfig Act)
    (u : UnderEnv σ Act Obs) (st : WState σ Act Obs) (a : Act)
    (p : PendingAction Act)
    (h : (wrapperStep cfg u st a).2.appliedEntry = some p) :
    p ∈ stepPs cfg st a ∧ p.schedTick ≤ st.tick := by
  have hf := (wrapperStep_resolution_fields cfg u st a).2.1
  rw [hf, resolveAction_selected] at h
  have hspec := selectFreshestAct_spec _ p h
  have hm := hspec.1
  unfold eligibleActs at hm
  rw [List.mem_filter] at hm
  exact ⟨hm.1, of_decide_eq_true hm.2⟩

/-- On a non-terminal step, the entry just applied leaves the pending list
and was sent strictly before the new tick. -/
theorem wrapperStep_applied_removed {σ Act Obs : Type} (cfg : DelayConfig Act)
    (u : UnderEnv σ Act Obs) (st : WState σ Act Obs) (a : Act)
    (p : PendingAction Act)
    (hinv : ∀ q ∈ st.pendingActs, q.sentTick < st.tick)
    (hap : (wrapperStep cfg u st a).2.appliedEntry = some p)
    (hdone : (wrapperStep cfg u st a).2.done = false) :
    p ∉ (wrapperStep cfg u st a).1.pendingActs ∧
    p.sentTick < (wrapperStep cfg u st a).1.tick := by
  have hf := wrapperStep_resolution_fields cfg u st a
  have hmem := wrapperStep_appliedEntry_mem cfg u st a p hap
  have hc : (u.step st.env
      (resolveAction cfg.neutral st.tick (stepPs cfg st a)).1).2.2.2.1 = false := by
    rw [← hf.2.2.2.1]; exact hdone
  have hs := wrapperStep_not_done_state cfg u st a hc
  have hsel : selectFreshestAct (eligibleActs st.tick (stepPs cfg st a)) = some p := by
    rw [← resolveAction_selected cfg.neutral, ← hf.2.1]; exact hap
  have hfil := (resolveAction_of_selected cfg.neutral st.tick (stepPs cfg st a) p hsel).2
  constructor
  · rw [hs.1]
    intro hp
    have hp2 : p ∈ (resolveAction cfg.neutral st.tick (stepPs cfg st a)).2.2 := hp
    rw [hfil, List.mem_filter] at hp2
    have := of_decide_eq_true hp2.2
    omega
  · rw [hs.1]
    have hsent : p.sentTick ≤ st.tick := stepPs_sentTick cfg st a hinv p hmem.1
    show p.sentTick < st.tick + 1
    omega

/-- On a non-terminal step, an entry that is already gone and was sent
strictly before the current tick stays gone. -/
theorem wrapperStep_gone_persists {σ Act Obs : Type} (cfg : DelayConfig Act)
    (u : UnderEnv σ Act Obs) (st : WState σ Act Obs) (a : Act)
    (p : PendingAction Act)
    (hgone : p ∉ st.pendingActs) (hsent : p.sentTick < st.tick)
    (hdone : (wrapperStep cfg u st a).2.done = false) :
    p ∉ (wrapperStep cfg u st a).1.pendingActs ∧
    p.sentTick < (wrapperStep cfg u st a).1.tick := by
  have hf := wrapperStep_resolution_fields cfg u st a
  have hc : (u.step st.env
      (resolveAction cfg.neutral st.tick (stepPs cfg st a)).1).2.2.2.1 = false := by
    rw [← hf.2.2.2.1]; exact hdone
  have hs := wrapperStep_not_done_state cfg u st a hc
  constructor
  · intro hp
    have hp2 : p ∈ stepPs cfg st a := wrapperStep_pending_mem cfg u st a p hp
    simp only [stepPs] at hp2
    rcases List.mem_append.mp hp2 with hm | hm
    · exact hgone hm
    · rw [List.mem_singleton.mp hm] at hsent
      exact absurd hsent (by simp)
  · rw [hs.1]
    show p.sentTick < st.tick + 1
    omega

/-- An entry that is gone and stale is never applied anywhere along a run
whose steps are all non-terminal. -/
theorem wrapperRun_gone_never_applied {σ Act Obs : Type} (cfg : DelayConfig Act)
    (u : UnderEnv σ Act Obs) (acts : List Act) :
    ∀ (st : WState σ Act Obs) (p : PendingAction Act),
      (∀ r ∈ (wrapperRun cfg u st acts).2, r.done = false) →
      p ∉ st.pendingActs → p.sentTick < st.tick →
      ∀ r ∈ (wrapperRun cfg u st acts).2, r.appliedEntry ≠ some p := by
  induction acts with
  | nil =>
    intro st p _ _ _ r hr
    simp [wrapperRun] at hr
  | cons a as ih =>
    intro st p hdones hgone hsent r hr
    have hdone_head : (wrapperStep cfg u st a).2.done = false :=
      hdones _ (by simp only [wrapperRun]; exact List.mem_cons_self _ _)
    have hpers := wrapperStep_gone_persists cfg u st a p hgone hsent hdone_head
    simp only [wrapperRun] at hr
    rcases List.mem_cons.mp hr with hr | hr
    · subst hr
      intro hap
      have hmem := wrapperStep_appliedEntry_mem cfg u st a p hap
      have hp2 := hmem.1
      simp only [stepPs] at hp2
      rcases List.mem_append.mp hp2 with hm | hm
      · exact hgone hm
      · rw [List.mem_singleton.mp hm] at hsent
        exact absurd hsent (by simp)
    · exact ih (wrapperStep cfg u st a).1 p
        (fun r' hr' => hdones r'
          (by simp only [wrapperRun]; exact List.mem_cons_of_mem _ hr'))
        hpers.1 hpers.2 r hr

/-- Across an episode (a run whose steps are all non-terminal, started
with only freshly sent entries pending), no pending entry is applied on
two different ticks. -/
theorem wrapperRun_no_double_apply {σ Act Obs : Type} (cfg : DelayConfig Act)
    (u : UnderEnv σ Act Obs) (acts : List Act) :
    ∀ st : WState σ Act Obs,
      (∀ q ∈ st.pendingActs, q.sentTick < st.tick) →
      (∀ r ∈ (wrapperRun cfg u st acts).2, r.done = false) →
      (wrapperRun cfg u st acts).2.Pairwise
        (fun r1 r2 => ∀ p, r1.appliedEntry = some p → r2.appliedEntry ≠ some p) := by
  induction acts with
  | nil => intro st _ _; simp [wrapperRun]
  | cons a as ih =>
    intro st hinv hdones
    have hdone_head : (wrapperStep cfg u st a).2.done = false :=
      hdones _ (by simp only [wrapperRun]; exact List.mem_cons_self _ _)
    have hdones_tail :
        ∀ r ∈ (wrapperRun cfg u (wrapperStep cfg u st a).1 as).2, r.done = false :=
      fun r hr => hdones r
        (by simp only [wrapperRun]; exact List.mem_cons_of_mem _ hr)
    simp only [wrapperRun]
    refine List.Pairwise.cons ?_
      (ih _ (wrapperStep_sentTick_inv cfg u st a hinv) hdones_tail)
    intro r' hr' p hap
    have hrem := wrapperStep_applied_removed cfg u st a p hinv hap hdone_head
    exact wrapperRun_gone_never_applied cfg u as _ p hdones_tail hrem.1 hrem.2 r' hr'

/-- In the degenerate configuration every sampled action delay is zero. -/
theorem degenerate_sampleAct {Act : Type} (neutral : Act) (s : Nat) :
    ((mkUniformConfig 0 1 0 1 neutral).sampler.sampleAct s).1 = 0 := by
  simp [mkUniformConfig, uniformSampler, Nat.mod_one]

/-- In the degenerate configuration every sampled observation delay is
zero. -/
theorem degenerate_sampleObs {Act : Type} (neutral : Act) (s : Nat) :
    ((mkUniformConfig 0 1 0 1 neutral).sampler.sampleObs s).1 = 0 := by
  simp [mkUniformConfig, uniformSampler, Nat.mod_one]

/-- With an empty pending list, action resolution in the degenerate
configuration applies exactly the action just sent and leaves nothing
pending. -/
theorem degenerate_resolveAction {σ Act Obs : Type} (neutral : Act)
    (st : WState σ Act Obs) (a : Act) (hpa : st.pendingActs = []) :
    resolveAction (mkUniformConfig 0 1 0 1 neutral).neutral st.tick
        (stepPs (mkUniformConfig 0 1 0 1 neutral) st a) =
      (a, some ⟨a, st.tick, st.tick⟩, []) := by
  have hps : stepPs (mkUniformConfig 0 1 0 1 neutral) st a = [⟨a, st.tick, st.tick⟩] := by
    simp [stepPs, hpa, degenerate_sampleAct]
  rw [hps]
  simp [resolveAction, eligibleActs, selectFreshestAct]

/-- With an empty pending queue, observation resolution in the degenerate
configuration delivers exactly the raw observation just produced and
leaves nothing queued. -/
theorem degenerate_resolveObs {σ Act Obs : Type} (neutral : Act)
    (u : UnderEnv σ Act Obs) (st : WState σ Act Obs) (a : Act)
    (hpa : st.pendingActs = []) (hpo : st.pendingObss = []) :
    resolveObs st.lastDelivered st.tick
        (stepQs (mkUniformConfig 0 1 0 1 neutral) u st a) =
      ((u.step st.env a).2.1, []) := by
  have hqs : stepQs (mkUniformConfig 0 1 0 1 neutral) u st a =
      [⟨(u.step st.env a).2.1, st.tick, st.tick⟩] := by
    simp only [stepQs, degenerate_resolveAction neutral st a hpa, hpo]
    simp [degenerate_sampleObs]
  rw [hqs]
  simp [resolveObs, eligibleObss, selectFreshestObs]

/-- One step of the degenerately configured wrapper corresponds exactly to
one step of the base auto-reset wrapper on the same underlying state: the
action just sent is the one applied, the exposed observation, reward, done
and info agree, and the emptiness invariants persist. -/
theorem degenerate_step_correspondence {σ Act Obs : Type} (neutral : Act)
    (u : UnderEnv σ Act Obs) (stW : WState σ Act Obs)
    (stB : BaseEnvState σ Obs) (a : Act) (henv : stW.env = stB.env)
    (hpa : stW.pendingActs = []) (hpo : stW.pendingObss = []) :
    (wrapperStep (mkUniformConfig 0 1 0 1 neutral) u stW a).2.appliedAction = a ∧
    (wrapperStep (mkUniformConfig 0 1 0 1 neutral) u stW a).2.aug.obs =
      (BaseEnv.step u stB a).2.1 ∧
    (wrapperStep (mkUniformConfig 0 1 0 1 neutral) u stW a).2.reward =
      (BaseEnv.step u stB a).2.2.1 ∧
    (wrapperStep (mkUniformConfig 0 1 0 1 neutral) u stW a).2.done =
      (BaseEnv.step u stB a).2.2.2.1 ∧
    (wrapperStep (mkUniformConfig 0 1 0 1 neutral) u stW a).2.info =
      (BaseEnv.step u stB a).2.2.2.2 ∧
    (wrapperStep (mkUniformConfig 0 1 0 1 neutral) u stW a).1.env =
      (BaseEnv.step u stB a).1.env ∧
    (wrapperStep (mkUniformConfig 0 1 0 1 neutral) u stW a).1.pendingActs = [] ∧
    (wrapperStep (mkUniformConfig 0 1 0 1 neutral) u stW a).1.pendingObss = [] := by
  have hres := degenerate_resolveAction neutral stW a hpa
  have hobs := degenerate_resolveObs neutral u stW a hpa hpo
  have hf := wrapperStep_resolution_fields (mkUniformConfig 0 1 0 1 neutral) u stW a
  cases hc : (u.step stW.env a).2.2.2.1 with
  | true =>
    have hc' : (u.step stW.env
        (resolveAction (mkUniformConfig 0 1 0 1 neutral).neutral stW.tick
          (stepPs (mkUniformConfig 0 1 0 1 neutral) stW a)).1).2.2.2.1 = true := by
      rw [hres]; exact hc
    have hcB : (u.step stB.env a).2.2.2.1 = true := by rw [← henv]; exact hc
    have hs := wrapperStep_done_state (mkUniformConfig 0 1 0 1 neutral) u stW a hc'
    refine ⟨by rw [hf.1, hres], ?_, ?_, ?_, ?_, ?_, ?_, ?_⟩ <;>
      simp [hs.1, hs.2, hf.1, hf.2.2.2.1, hf.2.2.2.2.1, hf.2.2.2.2.2, hres, hobs,
        wrapperReset, BaseEnv.step, BaseEnv.resetB, henv, hc, hcB]
  | false =>
    have hc' : (u.step stW.env
        (resolveAction (mkUniformConfig 0 1 0 1 neutral).neutral stW.tick
          (stepPs (mkUniformConfig 0 1 0 1 neutral) stW a)).1).2.2.2.1 = false := by
      rw [hres]; exact hc
    have hcB : (u.step stB.env a).2.2.2.1 = false := by rw [← henv]; exact hc
    have hs := wrapperStep_not_done_state (mkUniformConfig 0 1 0 1 neutral) u stW a hc'
    refine ⟨by rw [hf.1, hres], ?_, ?_, ?_, ?_, ?_, ?_, ?_⟩ <;>
      simp [hs.1, hs.2, hf.1, hf.2.2.2.1, hf.2.2.2.2.1, hf.2.2.2.2.2, hres, hobs,
        BaseEnv.step, BaseEnv.resetB, henv, hc, hcB]

/-- Along any run from empty pending structures, the degenerately
configured wrapper applies exactly the scripted actions and exposes
exactly the base auto-reset wrapper's transitions. -/
theorem degenerate_run_correspondence {σ Act Obs : Type} (neutral : Act)
    (u : UnderEnv σ Act Obs) (acts : List Act) :
    ∀ (stW : WState σ Act Obs) (stB : BaseEnvState σ Obs),
      stW.env = stB.env → stW.pendingActs = [] → stW.pendingObss = [] →
      (wrapperRun (mkUniformConfig 0 1 0 1 neutral) u stW acts).2.map
          (fun r => r.appliedAction) = acts ∧
      (wrapperRun (mkUniformConfig 0 1 0 1 neutral) u stW acts).2.map
          (fun r => (r.aug.obs, r.reward, r.done, r.info)) =
        (BaseEnv.run u stB acts).2 := by
  induction acts with
  | nil => intro stW stB _ _ _; exact ⟨rfl, rfl⟩
  | cons a as ih =>
    intro stW stB henv hpa hpo
    have hstep := degenerate_step_correspondence neutral u stW stB a henv hpa hpo
    have hrest := ih (wrapperStep (mkUniformConfig 0 1 0 1 neutral) u stW a).1
      (BaseEnv.step u stB a).1 hstep.2.2.2.2.2.1 hstep.2.2.2.2.2.2.1
      hstep.2.2.2.2.2.2.2
    constructor
    · simp only [wrapperRun, List.map_cons]
      rw [hstep.1, hrest.1]
    · simp only [wrapperRun, BaseEnv.run, List.map_cons]
      rw [hstep.2.1, hstep.2.2.1, hstep.2.2.2.1, hstep.2.2.2.2.1, hrest.2]

/-- C6: with the degenerate configuration
`min_observation_delay = 0, sup_observation_delay = 1,
min_action_delay = 0, sup_action_delay = 1`, for every action sequence the
wrapper applies exactly the actions sent, and the delivered observation,
reward, done flag and info on each tick equal exactly those of the base
auto-reset environment alone on the same action sequence. -/
theorem degenerate_config_passthrough {σ Act Obs : Type} (neutral : Act)
    (u : UnderEnv σ Act Obs) (s : σ) (seed : Nat) (acts : List Act) :
    (wrapperReplay (mkUniformConfig 0 1 0 1 neutral) u s seed acts).2.1.map
        (fun r => r.appliedAction) = acts ∧
    (wrapperReplay (mkUniformConfig 0 1 0 1 neutral) u s seed acts).2.1.map
        (fun r => (r.aug.obs, r.reward, r.done, r.info)) =
      (BaseEnv.run u (BaseEnv.init u s) acts).2 ∧
    (wrapperReplay (mkUniformConfig 0 1 0 1 neutral) u s seed acts).1.obs =
      (BaseEnv.init u s).transition.1 := by
  have h := degenerate_run_correspondence neutral u acts
    (wrapperReset (mkUniformConfig 0 1 0 1 neutral) u s seed).1
    (BaseEnv.init u s) rfl rfl rfl
  exact ⟨h.1, h.2, rfl⟩

/-- C1: each step applies, among pending actions whose scheduled apply
tick has been reached, the one with the latest sent tick (ties broken by
latest scheduled apply tick), discarding every other eligible entry, and
applies the neutral action when none is eligible; across an episode no
pending entry is applied twice; and in the tie-break scenario (action A
sent at tick 0 with delay 1, action B sent at tick 1 with delay 0) B is
applied at tick 1 while A is never applied. -/
theorem action_resolution_correct {σ Act Obs : Type} (cfg : DelayConfig Act)
    (u : UnderEnv σ Act Obs) (st : WState σ Act Obs) (a : Act) :
    (wrapperStep cfg u st a).2.appliedAction =
        (resolveAction cfg.neutral st.tick (stepPs cfg st a)).1 ∧
    (wrapperStep cfg u st a).2.appliedEntry =
        (resolveAction cfg.neutral st.tick (stepPs cfg st a)).2.1 ∧
    ((wrapperStep cfg u st a).2.done = false →
      (wrapperStep cfg u st a).1.pendingActs =
        (resolveAction cfg.neutral st.tick (stepPs cfg st a)).2.2) ∧
    (∀ (n : Act) (tick : Nat) (ps : List (PendingAction Act)),
      (eligibleActs tick ps = [] → resolveAction n tick ps = (n, none, ps)) ∧
      (eligibleActs tick ps ≠ [] →
        ∃ p, p ∈ eligibleActs tick ps ∧
          (resolveAction n tick ps).1 = p.action ∧
          (resolveAction n tick ps).2.1 = some p ∧
          (∀ q ∈ eligibleActs tick ps, actLexLE q p) ∧
          (resolveAction n tick ps).2.2 =
            ps.filter (fun q => decide (tick < q.schedTick)))) ∧
    (∀ (st0 : WState σ Act Obs) (acts : List Act),
      (∀ q ∈ st0.pendingActs, q.sentTick < st0.tick) →
      (∀ r ∈ (wrapperRun cfg u st0 acts).2, r.done = false) →
      (wrapperRun cfg u st0 acts).2.Pairwise
        (fun r1 r2 => ∀ p, r1.appliedEntry = some p → r2.appliedEntry ≠ some p)) ∧
    (wrapperReplay cfgTieBreak recEnv [] 0 [10, 20, 30, 40]).2.1.map
        (fun r => r.appliedAction) = [0, 20, 30, 40] ∧
    (wrapperReplay cfgTieBreak recEnv [] 0 [10, 20, 30, 40]).2.2.env =
        [0, 20, 30, 40] := by
  have hf := wrapperStep_resolution_fields cfg u st a
  refine ⟨hf.1, hf.2.1, ?_, fun n tick ps => resolveAction_spec n tick ps,
    fun st0 acts hinv hdones =>
      wrapperRun_no_double_apply cfg u acts st0 hinv hdones,
    by decide, by decide⟩
  intro h
  have hc : (u.step st.env
      (resolveAction cfg.neutral st.tick (stepPs cfg st a)).1).2.2.2.1 = false := by
    rw [← hf.2.2.2.1]; exact h
  have hs := wrapperStep_not_done_state cfg u st a hc
  rw [hs.1]

/-- Witness for C1: the concrete tie-break episode has pairwise-distinct
applied entries, and action A (value 10) never reaches the underlying
environment. -/
theorem action_resolution_correct_witness :
    (wrapperRun cfgTieBreak recEnv
        (wrapperReset cfgTieBreak recEnv [] 0).1 [10, 20]).2.Pairwise
      (fun r1 r2 => ∀ p, r1.appliedEntry = some p → r2.appliedEntry ≠ some p) ∧
    (wrapperReplay cfgTieBreak recEnv [] 0 [10, 20, 30, 40]).2.2.env =
      [0, 20, 30, 40] := by
  have h := action_resolution_correct cfgTieBreak recEnv
    (wrapperReset cfgTieBreak recEnv [] 0).1 10
  exact ⟨h.2.2.2.2.1 (wrapperReset cfgTieBreak recEnv [] 0).1 [10, 20]
      (by decide) (by decide),
    h.2.2.2.2.2.2⟩

/-- C3: on every tick of every episode the exposed
`action_buffer_snapshot` has length exactly
`K = sup_observation_delay + sup_action_delay`; neither push nor reset
changes the buffer length, and immediately after `reset()` the snapshot is
`K` copies of the neutral action. -/
theorem action_buffer_length_invariant {σ Act Obs : Type}
    (cfg : DelayConfig Act) (u : UnderEnv σ Act Obs) (s : σ) (rng : Nat)
    (acts : List Act) :
    cfg.bufSize = cfg.supObsDelay + cfg.supActDelay ∧
    (∀ (K : Nat) (buf : List Act) (a : Act), buf.length = K →
      (bufferPush K buf a).length = K) ∧
    (∀ (K : Nat) (n : Act), (bufferReset K n).length = K) ∧
    (wrapperReset cfg u s rng).2.snapshot = List.replicate cfg.bufSize cfg.neutral ∧
    (wrapperReset cfg u s rng).2.snapshot.length = cfg.bufSize ∧
    (∀ r ∈ (wrapperRun cfg u (wrapperReset cfg u s rng).1 acts).2,
      r.aug.snapshot.length = cfg.bufSize) := by
  refine ⟨rfl, fun K buf a h => bufferPush_length K buf a h,
          fun K n => bufferReset_length K n, rfl, bufferReset_length _ _, ?_⟩
  exact (wrapperRun_buffer_length cfg u acts (wrapperReset cfg u s rng).1
    (bufferReset_length _ _)).2

/-- Witness for C3 at a concrete configuration and buffer. -/
theorem action_buffer_length_invariant_witness :
    (bufferPush 3 [1, 2, 3] (4 : Int)).length = 3 ∧
    (bufferReset 7 (0 : Int)).length = 7 ∧
    (wrapperReset cfgObsHold countEnv 0 0).2.snapshot =
      List.replicate 10 (0 : Int) := by
  have h := action_buffer_length_invariant cfgObsHold countEnv 0 0 [1, 2]
  exact ⟨h.2.1 3 [1, 2, 3] 4 rfl, h.2.2.1 7 0, h.2.2.2.1⟩

/-- The uniform sampler draws the observation delay from its configured
half-open range. -/
theorem uniformSampler_obs_range (minO supO minA supA : Nat)
    (h : minO < supO) (s : Nat) :
    minO ≤ ((uniformSampler minO supO minA supA).sampleObs s).1 ∧
    ((uniformSampler minO supO minA supA).sampleObs s).1 < supO := by
  simp only [uniformSampler]
  have hm : lcgNext s % (supO - minO) < supO - minO := Nat.mod_lt _ (by omega)
  omega

/-- The uniform sampler draws the action delay from its configured
half-open range. -/
theorem uniformSampler_act_range (minO supO minA supA : Nat)
    (h : minA < supA) (s : Nat) :
    minA ≤ ((uniformSampler minO supO minA supA).sampleAct s).1 ∧
    ((uniformSampler minO supO minA supA).sampleAct s).1 < supA := by
  simp only [uniformSampler]
  have hm : lcgNext s % (supA - minA) < supA - minA := Nat.mod_lt _ (by omega)
  omega

/-- One step of a uniformly configured wrapper exposes delay fields inside
the configured half-open ranges. -/
theorem wrapperStep_delays_in_range {σ Act Obs : Type}
    (minO supO minA supA : Nat) (neutral : Act) (u : UnderEnv σ Act Obs)
    (st : WState σ Act Obs) (a : Act) (h1 : minO < supO) (h2 : minA < supA) :
    minO ≤ (wrapperStep (mkUniformConfig minO supO minA supA neutral) u st a).2.aug.obsDelay ∧
    (wrapperStep (mkUniformConfig minO supO minA supA neutral) u st a).2.aug.obsDelay < supO ∧
    minA ≤ (wrapperStep (mkUniformConfig minO supO minA supA neutral) u st a).2.aug.actDelay ∧
    (wrapperStep (mkUniformConfig minO supO minA supA neutral) u st a).2.aug.actDelay < supA := by
  simp only [wrapperStep, wrapperReset, mkUniformConfig]
  split
  · exact ⟨Nat.le_refl _, h1, Nat.le_refl _, h2⟩
  · exact ⟨(uniformSampler_obs_range minO supO minA supA h1 _).1,
           (uniformSampler_obs_range minO supO minA supA h1 _).2,
           (uniformSampler_act_range minO supO minA supA h2 _).1,
           (uniformSampler_act_range minO supO minA supA h2 _).2⟩

/-- Along any run of a uniformly configured wrapper, every exposed delay
field lies inside its configured half-open range. -/
theorem wrapperRun_delays_in_range {σ Act Obs : Type}
    (minO supO minA supA : Nat) (neutral : Act) (u : UnderEnv σ Act Obs)
    (acts : List Act) (h1 : minO < supO) (h2 : minA < supA) :
    ∀ st : WState σ Act Obs,
      ∀ r ∈ (wrapperRun (mkUniformConfig minO supO minA supA neutral) u st acts).2,
        minO ≤ r.aug.obsDelay ∧ r.aug.obsDelay < supO ∧
        minA ≤ r.aug.actDelay ∧ r.aug.actDelay < supA := by
  induction acts with
  | nil => intro st r hr; simp [wrapperRun] at hr
  | cons a as ih =>
    intro st r hr
    simp only [wrapperRun] at hr
    rcases List.mem_cons.mp hr with hr | hr
    · exact hr ▸ wrapperStep_delays_in_range minO supO minA supA neutral u st a h1 h2
    · exact ih _ r hr

/-- C4: for every tick of every episode of a uniformly configured wrapper,
the `observation_delay` field of the augmented observation lies in
`[min_observation_delay, sup_observation_delay)` and the `action_delay`
field lies in `[min_action_delay, sup_action_delay)`. -/
theorem delay_fields_in_configured_ranges {σ Act Obs : Type}
    (minO supO minA supA : Nat) (neutral : Act) (u : UnderEnv σ Act Obs)
    (s : σ) (seed : Nat) (acts : List Act)
    (h1 : minO < supO) (h2 : minA < supA) :
    (minO ≤ (wrapperReplay (mkUniformConfig minO supO minA supA neutral) u s seed acts).1.obsDelay ∧
     (wrapperReplay (mkUniformConfig minO supO minA supA neutral) u s seed acts).1.obsDelay < supO ∧
     minA ≤ (wrapperReplay (mkUniformConfig minO supO minA supA neutral) u s seed acts).1.actDelay ∧
     (wrapperReplay (mkUniformConfig minO supO minA supA neutral) u s seed acts).1.actDelay < supA) ∧
    ∀ r ∈ (wrapperReplay (mkUniformConfig minO supO minA supA neutral) u s seed acts).2.1,
      minO ≤ r.aug.obsDelay ∧ r.aug.obsDelay < supO ∧
      minA ≤ r.aug.actDelay ∧ r.aug.actDelay < supA := by
  refine ⟨⟨Nat.le_refl _, h1, Nat.le_refl _, h2⟩, ?_⟩
  exact wrapperRun_delays_in_range minO supO minA supA neutral u acts h1 h2 _

/-- Witness for C4 at a concrete configuration. -/
theorem delay_fields_in_configured_ranges_witness :
    0 ≤ (wrapperReplay (mkUniformConfig 0 8 0 2 (0 : Int)) countEnv 0 3 [1]).1.obsDelay ∧
    (wrapperReplay (mkUniformConfig 0 8 0 2 (0 : Int)) countEnv 0 3 [1]).1.obsDelay < 8 ∧
    0 ≤ (wrapperReplay (mkUniformConfig 0 8 0 2 (0 : Int)) countEnv 0 3 [1]).1.actDelay ∧
    (wrapperReplay (mkUniformConfig 0 8 0 2 (0 : Int)) countEnv 0 3 [1]).1.actDelay < 2 :=
  (delay_fields_in_configured_ranges 0 8 0 2 (0 : Int) countEnv 0 3 [1]
    (by decide) (by decide)).1

/-- Witness for C5 at a concrete configuration, seed and action list. -/
theorem wrapperReplay_deterministic_witness :
    (wrapperReplay cfgObsHold countEnv 0 5 [1, 2]).2.1.map
        (fun r => (r.appliedAction, r.deliveredObs, r.obsDelaySample, r.actDelaySample)) =
      (wrapperReplay cfgObsHold countEnv 0 5 [1, 2]).2.1.map
        (fun r => (r.appliedAction, r.deliveredObs, r.obsDelaySample, r.actDelaySample)) ∧
    wrapperReplay cfgObsHold countEnv 0 5 [1, 2] =
      wrapperReplay cfgObsHold countEnv 0 5 [1, 2] :=
  wrapperReplay_deterministic cfgObsHold countEnv 0 5 5 [1, 2] [1, 2] rfl rfl

end Rlrd
